import Mathlib

/-!
Verification development for the f1-insights repository.

Embedded here:
* the track segmentation loop and the per-segment fastest-driver
  attribution loop of `Australian GP/Qualifying/track_breakdown/main.py`
  (module-level code, lines 37-131);
* `analyze_slipstream` of `src/f1_insights/utils/telemetry_utils.py`;
* `get_driver_info` of `src/f1_insights/utils/driver_utils.py`.

Python floats are modelled as exact real numbers; telemetry tables and
point arrays are modelled as Lean lists.
-/

namespace F1

/-- A 2D track point `(x, y)` on the circuit centerline. -/
abbrev Point : Type := ℝ × ℝ

/-- The default point used to make list indexing total; the proofs show
every index used by the code is in range, so this value never matters. -/
def origin : Point := ((0 : ℝ), (0 : ℝ))

/-- `distance` from `track_breakdown/main.py`:
`np.sqrt((x2 - x1)**2 + (y2 - y1)**2)`. -/
noncomputable def distance (x1 y1 x2 y2 : ℝ) : ℝ :=
  Real.sqrt ((x2 - x1) ^ 2 + (y2 - y1) ^ 2)

/-- `distance` applied to two points. -/
noncomputable def distPt (p q : Point) : ℝ := distance p.1 p.2 q.1 q.2

/-- Total track length: the loop
`for i in range(1, len(track_x)): track_length += distance(...)`. -/
noncomputable def track_length : List Point → ℝ
  | [] => 0
  | [_] => 0
  | p :: q :: rest => distPt p q + track_length (q :: rest)

/-- The mutable state of the segmentation loop: the retained `segments`,
their recorded midpoints `segment_points`, and the accumulator pair
`current_segment` / `current_length`. -/
structure SegState where
  segments : List (List Point)
  segment_points : List Point
  current_segment : List Point
  current_length : ℝ

/-- The value of `current_segment` after the two `append`s of one loop
iteration: `if current_segment == []: current_segment.append(pt1)` and
then `current_segment.append(pt2)`. -/
def stepCur (st : SegState) (pt1 pt2 : Point) : List Point :=
  (if st.current_segment.isEmpty then st.current_segment ++ [pt1]
   else st.current_segment) ++ [pt2]

/-- One iteration of the segmentation loop body (`main.py` lines 58-80):
accumulate the edge `pt1 → pt2`, and cut when the accumulated length
reaches the target or the final polyline point is reached.  A cut
segment is retained only if it has at least 2 points; the new
accumulator keeps `pt2` as its first point. -/
noncomputable def segStep (target : ℝ) (st : SegState) (pt1 pt2 : Point)
    (isLast : Bool) : SegState :=
  let segment_length := distPt pt1 pt2
  let cur := stepCur st pt1 pt2
  let len := st.current_length + segment_length
  if target ≤ len ∨ isLast = true then
    if 2 ≤ cur.length then
      { segments := st.segments ++ [cur]
        segment_points := st.segment_points ++ [cur.getD (cur.length / 2) pt2]
        current_segment := [pt2]
        current_length := 0 }
    else
      { segments := st.segments
        segment_points := st.segment_points
        current_segment := [pt2]
        current_length := 0 }
  else
    { st with current_segment := cur, current_length := len }

/-- The segmentation loop `for i in range(1, len(track_x))`: `prev` is
`track_x[i-1]`, the head of `rem` is `track_x[i]`, and `rem.isEmpty`
after taking that head decides `i == len(track_x) - 1`. -/
noncomputable def segLoop (target : ℝ) : SegState → Point → List Point → SegState
  | st, _, [] => st
  | st, prev, pt2 :: rest =>
    segLoop target (segStep target st prev pt2 rest.isEmpty) pt2 rest

/-- The whole segmentation computation of `main.py` lines 41-80: total
length, target length per segment (`track_length / num_segments`), and
the cutting loop, returning `(segments, segment_points)`. -/
noncomputable def segmentTrack (pts : List Point) (num_segments : ℕ) :
    List (List Point) × List Point :=
  match pts with
  | [] => ([], [])
  | p :: rest =>
    let target := track_length pts / (num_segments : ℝ)
    let final := segLoop target ⟨[], [], [], 0⟩ p rest
    (final.segments, final.segment_points)

/-- Concatenation of segment point sequences, dropping each shared
boundary point once: the first point of every segment after the first is
dropped (it equals the previous segment's last point). -/
def reconstruct : List (List Point) → List Point
  | [] => []
  | s :: rest => s ++ (rest.map List.tail).flatten

/-- Two consecutive segments are linked when the first's last point is
the second's first point (the shared cut point). -/
def linked (s t : List Point) : Prop := s.getLast? = t.head?

/-- The relation between a retained segment and its recorded midpoint:
the segment has at least two points and the midpoint is the entry at
array index `len(segment) // 2`. -/
def MidR (seg : List Point) (sp : Point) : Prop :=
  2 ≤ seg.length ∧ sp = seg.getD (seg.length / 2) origin

/-! ### Attribution (`main.py` lines 85-131) -/

/-- One telemetry sample of a driver's fastest lap: planar position and
speed. -/
structure TelemetrySample where
  x : ℝ
  y : ℝ
  speed : ℝ

/-- The default sample used to make list indexing total. -/
def defaultSample : TelemetrySample := ⟨0, 0, 0⟩

/-- A driver together with their fastest-lap telemetry (possibly empty). -/
structure DriverData where
  driver : String
  tel : List TelemetrySample

/-- The per-segment distances array:
`np.sqrt((driver_tel['X'] - mid_x)**2 + (driver_tel['Y'] - mid_y)**2)`. -/
noncomputable def sampleDistances (tel : List TelemetrySample) (mid : Point) :
    List ℝ :=
  tel.map (fun s => Real.sqrt ((s.x - mid.1) ^ 2 + (s.y - mid.2) ^ 2))

/-- `np.argmin` on a list: index of the first occurrence of the minimum.
The accumulator keeps the best index and value seen so far. -/
noncomputable def argminAux : List ℝ → ℕ → ℝ → ℕ → ℕ
  | [], bestIdx, _, _ => bestIdx
  | x :: xs, bestIdx, bestVal, cur =>
    if x < bestVal then argminAux xs cur x (cur + 1)
    else argminAux xs bestIdx bestVal (cur + 1)

/-- `np.argmin` (0 on an empty list, which the code never hits). -/
noncomputable def argmin : List ℝ → ℕ
  | [] => 0
  | x :: xs => argminAux xs 0 x 1

/-- `speed = driver_tel['Speed'].iloc[closest_idx]` where
`closest_idx = np.argmin(distances)`. -/
noncomputable def nearestSpeed (tel : List TelemetrySample) (mid : Point) : ℝ :=
  (tel.getD (argmin (sampleDistances tel mid)) defaultSample).speed

/-- The initial value of one attribution cell:
`segment_fastest_driver[i] = None`, `segment_fastest_speed[i] = 0`. -/
def noAttr : Option String × ℝ := ((none : Option String), (0 : ℝ))

/-- The per-driver inner loop (`main.py` lines 96-127): a driver with
empty telemetry is skipped; otherwise every segment cell `i` is updated
from the speed at the sample nearest `segment_points[i]`, with the
strictly-greater test `speed > segment_fastest_speed[i]`. -/
noncomputable def processDriver (segment_points : List Point)
    (st : List (Option String × ℝ)) (dd : DriverData) :
    List (Option String × ℝ) :=
  if dd.tel.isEmpty then st
  else
    (segment_points.zip st).map (fun ms =>
      let speed := nearestSpeed dd.tel ms.1
      if ms.2.2 < speed then (some dd.driver, speed) else ms.2)

/-- The full attribution pass (`main.py` lines 85-131): initialize every
cell to `(None, 0)` (`[None] * len(segments)`, `[0] * len(segments)`)
and fold the per-driver update over the driver list in order. -/
noncomputable def segmentAttribution (segments : List (List Point))
    (segment_points : List Point) (drivers : List DriverData) :
    List (Option String × ℝ) :=
  drivers.foldl (processDriver segment_points)
    (segments.map (fun _ => noAttr))

/-! ### `analyze_slipstream` (`telemetry_utils.py` lines 46-73) -/

/-- One row of the telemetry table used by `analyze_slipstream`; only the
`DistanceToCarAhead` and `Speed` columns are read. -/
structure TelemetryRow where
  distanceToCarAhead : ℚ
  speed : ℚ

/-- `pandas.Series.min` on a nonempty column (the empty-table value, NaN,
is a float artifact outside this model; 0 is a junk value the theorems
never rely on). -/
def seriesMin : List ℚ → ℚ
  | [] => 0
  | x :: xs => xs.foldl min x

/-- `pandas.Series.max` on a nonempty column. -/
def seriesMax : List ℚ → ℚ
  | [] => 0
  | x :: xs => xs.foldl max x

/-- `analyze_slipstream(telemetry, min_distance, min_speed)`: returns
`(has_slipstream, min_dist, max_speed)` where
`has_slipstream = (min_dist < min_distance) and (max_speed > min_speed)`.
The source defaults are `min_distance = 50.0`, `min_speed = 300.0`. -/
def analyze_slipstream (telemetry : List TelemetryRow)
    (min_distance : ℚ) (min_speed : ℚ) : Bool × ℚ × ℚ :=
  let min_dist := seriesMin (telemetry.map (fun r => r.distanceToCarAhead))
  let max_speed := seriesMax (telemetry.map (fun r => r.speed))
  let has_slipstream := decide (min_dist < min_distance ∧ min_speed < max_speed)
  (has_slipstream, min_dist, max_speed)

/-! ### `get_driver_info` (`driver_utils.py` lines 6-38) -/

/-- One row of `session.results`, with the columns `get_driver_info`
reads. -/
structure ResultRow where
  abbreviation : String
  firstName : String
  lastName : String
  driverNumber : String
  teamName : String

/-- The dictionary returned by `get_driver_info`: exactly the keys
`name`, `number`, `team`. -/
structure DriverInfo where
  name : String
  number : String
  team : String
deriving DecidableEq

/-- `get_driver_info(session, driver_code)`: filter the result rows on
`Abbreviation == driver_code`; if none match return the default info,
else build the info from the first matching row (`.iloc[0]`). -/
def get_driver_info (results : List ResultRow) (driver_code : String) :
    DriverInfo :=
  match results.filter (fun r => r.abbreviation == driver_code) with
  | [] => { name := driver_code, number := "N/A", team := "Unknown" }
  | r :: _ =>
    { name := r.firstName ++ " " ++ r.lastName
      number := r.driverNumber
      team := r.teamName }

/-! ### Concrete inputs from the spec's example scenario (section 8) -/

/-- The five collinear track points of the spec's example scenario. -/
def pts5 : List Point := [((0 : ℝ), (0 : ℝ)), (10, 0), (20, 0), (30, 0), (40, 0)]

/-- Expected first segment of the example scenario. -/
def seg1 : List Point := [((0 : ℝ), (0 : ℝ)), (10, 0), (20, 0)]

/-- Expected second segment of the example scenario. -/
def seg2 : List Point := [((20 : ℝ), (0 : ℝ)), (30, 0), (40, 0)]

/-- Driver A of the example: speed 200 at `(10,0)`, 0 at `(30,0)`. -/
def dA : DriverData := ⟨"A", [⟨10, 0, 200⟩, ⟨30, 0, 0⟩]⟩

/-- Driver B of the example: speed 0 at `(10,0)`, 250 at `(30,0)`. -/
def dB : DriverData := ⟨"B", [⟨10, 0, 0⟩, ⟨30, 0, 250⟩]⟩

/-- Driver C: exactly driver A's speeds (ties A at `(10,0)` with 200). -/
def dC : DriverData := ⟨"C", [⟨10, 0, 200⟩, ⟨30, 0, 0⟩]⟩

/-- A polyline with a duplicated final point: three edges of lengths
10, 10 and 0, total length 20. -/
def ptsDup : List Point := [((0 : ℝ), (0 : ℝ)), (10, 0), (20, 0), (20, 0)]

/-- A single retained segment, for the zero-speed tie scenario. -/
def segsZ : List (List Point) := [[((0 : ℝ), (0 : ℝ)), (2, 0)]]

/-- Its midpoint list. -/
def spsZ : List Point := [((1 : ℝ), (0 : ℝ))]

/-- A driver whose only sample sits on the midpoint with speed 0. -/
def dZA : DriverData := ⟨"A", [⟨1, 0, 0⟩]⟩

/-- A second driver with the same zero-speed sample. -/
def dZB : DriverData := ⟨"B", [⟨1, 0, 0⟩]⟩

/-! ## Basic facts about the geometry -/

theorem distance_nonneg (x1 y1 x2 y2 : ℝ) : 0 ≤ distance x1 y1 x2 y2 :=
  Real.sqrt_nonneg _

theorem distPt_nonneg (p q : Point) : 0 ≤ distPt p q :=
  distance_nonneg _ _ _ _

theorem distPt_pos {p q : Point} (h : p ≠ q) : 0 < distPt p q := by
  apply Real.sqrt_pos.mpr
  rcases (not_and_or.mp (fun hc : p.1 = q.1 ∧ p.2 = q.2 => h (Prod.ext hc.1 hc.2)))
    with hx | hy
  · have h1 : 0 < (q.1 - p.1) ^ 2 := by
      have : q.1 - p.1 ≠ 0 := sub_ne_zero.mpr (fun he => hx he.symm)
      positivity
    have h2 : 0 ≤ (q.2 - p.2) ^ 2 := sq_nonneg _
    linarith
  · have h1 : 0 ≤ (q.1 - p.1) ^ 2 := sq_nonneg _
    have h2 : 0 < (q.2 - p.2) ^ 2 := by
      have : q.2 - p.2 ≠ 0 := sub_ne_zero.mpr (fun he => hy he.symm)
      positivity
    linarith

theorem track_length_nonneg (pts : List Point) : 0 ≤ track_length pts := by
  induction pts with
  | nil => simp [track_length]
  | cons p rest ih =>
    cases rest with
    | nil => simp [track_length]
    | cons q rest' =>
      have := distPt_nonneg p q
      simp only [track_length]
      linarith [ih]

/-! ## The segmentation step -/

theorem stepCur_length (st : SegState) (p q : Point) :
    2 ≤ (stepCur st p q).length := by
  unfold stepCur
  by_cases h : st.current_segment.isEmpty
  · rw [if_pos h]
    rw [List.isEmpty_iff] at h
    simp [h]
  · rw [if_neg h]
    rw [List.isEmpty_iff] at h
    have : 1 ≤ st.current_segment.length := by
      cases hc : st.current_segment with
      | nil => exact absurd hc h
      | cons a l => simp
    simp only [List.length_append, List.length_cons, List.length_nil]
    omega

theorem stepCur_ne_nil (st : SegState) (p q : Point) : stepCur st p q ≠ [] := by
  intro h
  have := stepCur_length st p q
  rw [h] at this
  simp at this

theorem stepCur_of_ne (st : SegState) (p q : Point)
    (h : st.current_segment ≠ []) :
    stepCur st p q = st.current_segment ++ [q] := by
  unfold stepCur
  rw [if_neg (by simpa [List.isEmpty_iff] using h)]

theorem segStep_cut (target : ℝ) (st : SegState) (p q : Point) (isLast : Bool)
    (h : target ≤ st.current_length + distPt p q ∨ isLast = true) :
    segStep target st p q isLast =
      { segments := st.segments ++ [stepCur st p q]
        segment_points := st.segment_points ++
          [(stepCur st p q).getD ((stepCur st p q).length / 2) q]
        current_segment := [q]
        current_length := 0 } := by
  unfold segStep
  rw [if_pos h, if_pos (stepCur_length st p q)]

theorem segStep_nocut (target : ℝ) (st : SegState) (p q : Point) (isLast : Bool)
    (h : ¬(target ≤ st.current_length + distPt p q ∨ isLast = true)) :
    segStep target st p q isLast =
      { segments := st.segments
        segment_points := st.segment_points
        current_segment := stepCur st p q
        current_length := st.current_length + distPt p q } := by
  unfold segStep
  rw [if_neg h]

/-! ## Reconstruction invariant for the segmentation loop -/

theorem reconstruct_append_singleton (A : List (List Point)) (c : List Point) :
    reconstruct (A ++ [c]) =
      reconstruct A ++ (if A.isEmpty then c else c.tail) := by
  cases A with
  | nil => simp [reconstruct]
  | cons a as =>
    simp [reconstruct, List.map_append, List.flatten_append]

theorem reconstruct_snoc_point (A : List (List Point)) (cs : List Point)
    (h : cs ≠ []) (p : Point) :
    reconstruct (A ++ [cs ++ [p]]) = reconstruct (A ++ [cs]) ++ [p] := by
  rw [reconstruct_append_singleton, reconstruct_append_singleton]
  cases cs with
  | nil => exact absurd rfl h
  | cons c cs' =>
    by_cases hA : A.isEmpty
    · simp [hA]
    · simp [hA]

theorem segLoop_covered (target : ℝ) (rem : List Point) :
    ∀ (st : SegState) (prev : Point), st.current_segment ≠ [] →
    reconstruct ((segLoop target st prev rem).segments ++
        [(segLoop target st prev rem).current_segment]) =
      reconstruct (st.segments ++ [st.current_segment]) ++ rem := by
  induction rem with
  | nil => intro st prev _; simp [segLoop]
  | cons pt2 rest ih =>
    intro st prev h
    have hstep : stepCur st prev pt2 = st.current_segment ++ [pt2] :=
      stepCur_of_ne st prev pt2 h
    simp only [segLoop]
    by_cases hcut :
        target ≤ st.current_length + distPt prev pt2 ∨ rest.isEmpty = true
    · rw [segStep_cut target st prev pt2 rest.isEmpty hcut]
      rw [ih _ pt2 (by simp)]
      simp only [hstep]
      rw [reconstruct_append_singleton
        (st.segments ++ [st.current_segment ++ [pt2]]) [pt2]]
      rw [if_neg (by simp)]
      rw [reconstruct_snoc_point st.segments st.current_segment h pt2]
      simp
    · rw [segStep_nocut target st prev pt2 rest.isEmpty hcut]
      rw [ih _ pt2 (by simp [hstep])]
      simp only [hstep]
      rw [reconstruct_snoc_point st.segments st.current_segment h pt2]
      simp

theorem segLoop_last (target : ℝ) (rem : List Point) :
    ∀ (h : rem ≠ []) (st : SegState) (prev : Point),
    (segLoop target st prev rem).current_segment = [rem.getLast h] := by
  induction rem with
  | nil => intro h; exact absurd rfl h
  | cons pt2 rest ih =>
    intro h st prev
    simp only [segLoop]
    cases rest with
    | nil =>
      simp only [List.isEmpty_nil]
      rw [segStep_cut target st prev pt2 true (Or.inr rfl)]
      simp [segLoop]
    | cons r rs =>
      rw [ih (by simp) _ pt2]
      simp [List.getLast_cons]

/-! ## Shared-boundary chain invariant -/

theorem chain_extend (segs : List (List Point)) (cs : List Point) (p : Point)
    (h : cs ≠ []) (hch : List.Chain' linked (segs ++ [cs])) :
    List.Chain' linked (segs ++ [cs ++ [p]]) := by
  rw [List.chain'_append] at hch ⊢
  obtain ⟨h1, _, h3⟩ := hch
  refine ⟨h1, List.chain'_singleton _, ?_⟩
  intro x hx y hy
  simp only [List.head?_cons, Option.mem_def, Option.some.injEq] at hy
  subst hy
  have hhead : (cs ++ [p]).head? = cs.head? := by
    cases cs with
    | nil => exact absurd rfl h
    | cons c cs' => simp
  unfold linked
  rw [hhead]
  exact h3 x hx cs (by simp)

theorem chain_cut (segs : List (List Point)) (cs : List Point) (p : Point)
    (h : cs ≠ []) (hch : List.Chain' linked (segs ++ [cs])) :
    List.Chain' linked ((segs ++ [cs ++ [p]]) ++ [[p]]) := by
  rw [List.chain'_append]
  refine ⟨chain_extend segs cs p h hch, List.chain'_singleton _, ?_⟩
  intro x hx y hy
  simp only [List.getLast?_concat, Option.mem_def, Option.some.injEq] at hx
  simp only [List.head?_cons, Option.mem_def, Option.some.injEq] at hy
  subst hx; subst hy
  unfold linked
  simp [List.getLast?_concat]

theorem segLoop_chain (target : ℝ) (rem : List Point) :
    ∀ (st : SegState) (prev : Point), st.current_segment ≠ [] →
    List.Chain' linked (st.segments ++ [st.current_segment]) →
    List.Chain' linked ((segLoop target st prev rem).segments ++
      [(segLoop target st prev rem).current_segment]) := by
  induction rem with
  | nil => intro st prev _ hch; simpa [segLoop] using hch
  | cons pt2 rest ih =>
    intro st prev h hch
    have hstep : stepCur st prev pt2 = st.current_segment ++ [pt2] :=
      stepCur_of_ne st prev pt2 h
    simp only [segLoop]
    by_cases hcut :
        target ≤ st.current_length + distPt prev pt2 ∨ rest.isEmpty = true
    · rw [segStep_cut target st prev pt2 rest.isEmpty hcut]
      apply ih _ pt2 (by simp)
      simp only [hstep]
      exact chain_cut st.segments st.current_segment pt2 h hch
    · rw [segStep_nocut target st prev pt2 rest.isEmpty hcut]
      apply ih _ pt2 (by simp [hstep])
      simp only [hstep]
      exact chain_extend st.segments st.current_segment pt2 h hch

/-! ## Segment count: one new segment per loop iteration at most -/

theorem segLoop_count (target : ℝ) (rem : List Point) :
    ∀ (st : SegState) (prev : Point),
    (segLoop target st prev rem).segments.length ≤
      st.segments.length + rem.length := by
  induction rem with
  | nil => intro st prev; simp [segLoop]
  | cons pt2 rest ih =>
    intro st prev
    simp only [segLoop]
    by_cases hcut :
        target ≤ st.current_length + distPt prev pt2 ∨ rest.isEmpty = true
    · rw [segStep_cut target st prev pt2 rest.isEmpty hcut]
      have := ih { segments := st.segments ++ [stepCur st prev pt2]
                   segment_points := st.segment_points ++
                     [(stepCur st prev pt2).getD ((stepCur st prev pt2).length / 2) pt2]
                   current_segment := [pt2]
                   current_length := 0 } pt2
      simp only [List.length_append, List.length_cons, List.length_nil] at this ⊢
      omega
    · rw [segStep_nocut target st prev pt2 rest.isEmpty hcut]
      have := ih { st with current_segment := stepCur st prev pt2
                           current_length := st.current_length + distPt prev pt2 } pt2
      simp only [List.length_cons] at this ⊢
      omega

/-! ## Midpoint invariant -/

theorem MidR_of_cut (st : SegState) (p q : Point) :
    MidR (stepCur st p q)
      ((stepCur st p q).getD ((stepCur st p q).length / 2) q) := by
  have hlen := stepCur_length st p q
  have hidx : (stepCur st p q).length / 2 < (stepCur st p q).length :=
    Nat.div_lt_self (by omega) one_lt_two
  exact ⟨hlen, by rw [List.getD_eq_getElem _ _ hidx, List.getD_eq_getElem _ _ hidx]⟩

theorem segLoop_mid (target : ℝ) (rem : List Point) :
    ∀ (st : SegState) (prev : Point),
    List.Forall₂ MidR st.segments st.segment_points →
    List.Forall₂ MidR (segLoop target st prev rem).segments
      (segLoop target st prev rem).segment_points := by
  induction rem with
  | nil => intro st prev hf; simpa [segLoop] using hf
  | cons pt2 rest ih =>
    intro st prev hf
    simp only [segLoop]
    by_cases hcut :
        target ≤ st.current_length + distPt prev pt2 ∨ rest.isEmpty = true
    · rw [segStep_cut target st prev pt2 rest.isEmpty hcut]
      apply ih _ pt2
      exact List.rel_append hf
        (List.Forall₂.cons (MidR_of_cut st prev pt2) List.Forall₂.nil)
    · rw [segStep_nocut target st prev pt2 rest.isEmpty hcut]
      exact ih _ pt2 hf

/-! ## Length-based segment count bound -/

theorem segLoop_bound (target : ℝ) (rem : List Point) :
    ∀ (st : SegState) (prev : Point), rem ≠ [] →
    List.Chain' (fun p q : Point => p ≠ q) (prev :: rem) →
    0 ≤ st.current_length →
    ((segLoop target st prev rem).segments.length : ℝ) * target <
      (st.segments.length : ℝ) * target + st.current_length +
        track_length (prev :: rem) + target := by
  induction rem with
  | nil => intro st prev h; exact absurd rfl h
  | cons pt2 rest ih =>
    intro st prev _ hch hcl
    have hne : prev ≠ pt2 := (List.chain'_cons.mp hch).1
    have hd : 0 < distPt prev pt2 := distPt_pos hne
    have hch' : List.Chain' (fun p q : Point => p ≠ q) (pt2 :: rest) :=
      (List.chain'_cons.mp hch).2
    have htl : track_length (prev :: pt2 :: rest) =
        distPt prev pt2 + track_length (pt2 :: rest) := rfl
    simp only [segLoop]
    cases rest with
    | nil =>
      simp only [List.isEmpty_nil]
      rw [segStep_cut target st prev pt2 true (Or.inr rfl)]
      simp only [segLoop, List.length_append, List.length_cons, List.length_nil]
      push_cast
      have : track_length [prev, pt2] = distPt prev pt2 + 0 := rfl
      rw [this]
      have h0 : track_length ([pt2] : List Point) = 0 := rfl
      nlinarith [hd, hcl]
    | cons r rs =>
      by_cases hlen : target ≤ st.current_length + distPt prev pt2
      · rw [segStep_cut target st prev pt2 _ (Or.inl hlen)]
        have := ih { segments := st.segments ++ [stepCur st prev pt2]
                     segment_points := st.segment_points ++
                       [(stepCur st prev pt2).getD ((stepCur st prev pt2).length / 2) pt2]
                     current_segment := [pt2]
                     current_length := 0 } pt2 (by simp) hch' le_rfl
        simp only [List.length_append, List.length_cons, List.length_nil] at this
        push_cast at this ⊢
        rw [htl]
        have h2 : track_length (pt2 :: r :: rs) =
            distPt pt2 r + track_length (r :: rs) := rfl
        linarith
      · rw [segStep_nocut target st prev pt2 _
          (by simp only [List.isEmpty_cons]; tauto)]
        have := ih { st with current_segment := stepCur st prev pt2
                             current_length := st.current_length + distPt prev pt2 }
          pt2 (by simp) hch' (by dsimp only; linarith)
        dsimp only at this
        rw [htl]
        linarith

/-! ## The first loop iteration and top-level unfolding -/

theorem segmentTrack_cons (p0 : Point) (rest : List Point) (N : ℕ) :
    segmentTrack (p0 :: rest) N =
      ((segLoop (track_length (p0 :: rest) / (N : ℝ)) ⟨[], [], [], 0⟩ p0 rest).segments,
       (segLoop (track_length (p0 :: rest) / (N : ℝ)) ⟨[], [], [], 0⟩ p0 rest).segment_points) :=
  rfl

theorem first_step (target : ℝ) (p0 p1 : Point) (isLast : Bool) :
    (segStep target ⟨[], [], [], 0⟩ p0 p1 isLast).current_segment ≠ [] ∧
    reconstruct ((segStep target ⟨[], [], [], 0⟩ p0 p1 isLast).segments ++
      [(segStep target ⟨[], [], [], 0⟩ p0 p1 isLast).current_segment]) = [p0, p1] ∧
    List.Chain' linked ((segStep target ⟨[], [], [], 0⟩ p0 p1 isLast).segments ++
      [(segStep target ⟨[], [], [], 0⟩ p0 p1 isLast).current_segment]) ∧
    0 ≤ (segStep target ⟨[], [], [], 0⟩ p0 p1 isLast).current_length ∧
    (segStep target ⟨[], [], [], 0⟩ p0 p1 isLast).segments.length ≤ 1 ∧
    List.Forall₂ MidR (segStep target ⟨[], [], [], 0⟩ p0 p1 isLast).segments
      (segStep target ⟨[], [], [], 0⟩ p0 p1 isLast).segment_points := by
  have hc : stepCur ⟨[], [], [], 0⟩ p0 p1 = [p0, p1] := rfl
  by_cases hcut : target ≤ (0 : ℝ) + distPt p0 p1 ∨ isLast = true
  · rw [segStep_cut target ⟨[], [], [], 0⟩ p0 p1 isLast hcut, hc]
    refine ⟨by simp, by simp [reconstruct], ?_, le_refl 0, by simp, ?_⟩
    · simp only [List.nil_append]
      exact List.chain'_cons.mpr
        ⟨by unfold linked; rfl, List.chain'_singleton _⟩
    · simp only [List.nil_append]
      exact List.Forall₂.cons ⟨by simp, by simp⟩ List.Forall₂.nil
  · rw [segStep_nocut target ⟨[], [], [], 0⟩ p0 p1 isLast hcut, hc]
    refine ⟨by simp, by simp [reconstruct], ?_, ?_, by simp, List.Forall₂.nil⟩
    · simpa using List.chain'_singleton ([p0, p1])
    · dsimp only
      exact add_nonneg le_rfl (distPt_nonneg p0 p1)

/-! ## Claim theorems on segmentation -/

/-- Claim C1: for every input polyline of at least 2 track points and
every positive target segment count N, concatenating the retained
segments' point sequences, dropping each shared boundary point once,
reproduces the original point sequence exactly; and consecutive retained
segments do share their boundary point (last of one = first of next). -/
theorem C1_reconstruction (pts : List Point) (N : ℕ)
    (h2 : 2 ≤ pts.length) (hN : 0 < N) :
    reconstruct (segmentTrack pts N).1 = pts ∧
    List.Chain' linked (segmentTrack pts N).1 := by
  obtain ⟨p0, p1, rest, rfl⟩ : ∃ p0 p1 rest, pts = p0 :: p1 :: rest := by
    cases pts with
    | nil => simp at h2
    | cons a tl =>
      cases tl with
      | nil => simp at h2
      | cons b tl' => exact ⟨a, b, tl', rfl⟩
  rw [segmentTrack_cons]
  cases rest with
  | nil =>
    have hc : stepCur ⟨[], [], [], 0⟩ p0 p1 = [p0, p1] := rfl
    rw [show segLoop (track_length [p0, p1] / (N : ℝ)) ⟨[], [], [], 0⟩ p0 [p1] =
        segStep (track_length [p0, p1] / (N : ℝ)) ⟨[], [], [], 0⟩ p0 p1 true from rfl]
    rw [segStep_cut _ _ p0 p1 true (Or.inr rfl), hc]
    constructor
    · simp [reconstruct]
    · simpa using List.chain'_singleton ([p0, p1])
  | cons r rs =>
    obtain ⟨hne, hrec, hch, -, -, -⟩ :=
      first_step (track_length (p0 :: p1 :: r :: rs) / (N : ℝ)) p0 p1 ((r :: rs).isEmpty)
    rw [show segLoop (track_length (p0 :: p1 :: r :: rs) / (N : ℝ)) ⟨[], [], [], 0⟩
          p0 (p1 :: r :: rs) =
        segLoop (track_length (p0 :: p1 :: r :: rs) / (N : ℝ))
          (segStep (track_length (p0 :: p1 :: r :: rs) / (N : ℝ)) ⟨[], [], [], 0⟩
            p0 p1 ((r :: rs).isEmpty)) p1 (r :: rs) from rfl]
    have hcov := segLoop_covered (track_length (p0 :: p1 :: r :: rs) / (N : ℝ))
      (r :: rs)
      (segStep (track_length (p0 :: p1 :: r :: rs) / (N : ℝ)) ⟨[], [], [], 0⟩
        p0 p1 ((r :: rs).isEmpty)) p1 hne
    rw [hrec] at hcov
    have hlast := segLoop_last (track_length (p0 :: p1 :: r :: rs) / (N : ℝ))
      (r :: rs) (by simp)
      (segStep (track_length (p0 :: p1 :: r :: rs) / (N : ℝ)) ⟨[], [], [], 0⟩
        p0 p1 ((r :: rs).isEmpty)) p1
    constructor
    · rw [hlast] at hcov
      rw [reconstruct_append_singleton] at hcov
      by_cases hes : (segLoop (track_length (p0 :: p1 :: r :: rs) / (N : ℝ))
          (segStep (track_length (p0 :: p1 :: r :: rs) / (N : ℝ)) ⟨[], [], [], 0⟩
            p0 p1 ((r :: rs).isEmpty)) p1 (r :: rs)).segments.isEmpty = true
      · rw [if_pos hes] at hcov
        rw [List.isEmpty_iff] at hes
        rw [hes] at hcov ⊢
        simp [reconstruct] at hcov
      · rw [if_neg (by simpa using hes)] at hcov
        simpa using hcov
    · exact (segLoop_chain (track_length (p0 :: p1 :: r :: rs) / (N : ℝ))
        (r :: rs)
        (segStep (track_length (p0 :: p1 :: r :: rs) / (N : ℝ)) ⟨[], [], [], 0⟩
          p0 p1 ((r :: rs).isEmpty)) p1 hne hch).left_of_append

/-- Claim C2 (amended): the number of retained segments is always at
most the number of input points minus 1; it is at most N additionally
provided no two consecutive input points coincide (with coincident
consecutive points, zero-length edges can produce up to N+1 segments). -/
theorem C2_count (pts : List Point) (N : ℕ)
    (h2 : 2 ≤ pts.length) (hN : 0 < N) :
    (segmentTrack pts N).1.length ≤ pts.length - 1 ∧
    (List.Chain' (fun p q : Point => p ≠ q) pts →
      (segmentTrack pts N).1.length ≤ N) := by
  obtain ⟨p0, p1, rest, rfl⟩ : ∃ p0 p1 rest, pts = p0 :: p1 :: rest := by
    cases pts with
    | nil => simp at h2
    | cons a tl =>
      cases tl with
      | nil => simp at h2
      | cons b tl' => exact ⟨a, b, tl', rfl⟩
  rw [segmentTrack_cons]
  dsimp only
  constructor
  · have := segLoop_count (track_length (p0 :: p1 :: rest) / (N : ℝ))
      (p1 :: rest) ⟨[], [], [], 0⟩ p0
    simp only [List.length_cons, List.length_nil] at this ⊢
    omega
  · intro hch
    have hd : 0 < distPt p0 p1 := distPt_pos (List.chain'_cons.mp hch).1
    have hL : 0 < track_length (p0 :: p1 :: rest) := by
      have h1 := track_length_nonneg (p1 :: rest)
      have : track_length (p0 :: p1 :: rest) =
          distPt p0 p1 + track_length (p1 :: rest) := rfl
      linarith [this ▸ le_refl (track_length (p0 :: p1 :: rest))]
    have hNpos : (0 : ℝ) < (N : ℝ) := by exact_mod_cast hN
    have ht : 0 < track_length (p0 :: p1 :: rest) / (N : ℝ) := div_pos hL hNpos
    have hb := segLoop_bound (track_length (p0 :: p1 :: rest) / (N : ℝ))
      (p1 :: rest) ⟨[], [], [], 0⟩ p0 (by simp) hch le_rfl
    have hNt : (N : ℝ) * (track_length (p0 :: p1 :: rest) / (N : ℝ)) =
        track_length (p0 :: p1 :: rest) :=
      mul_div_cancel₀ _ (ne_of_gt hNpos)
    simp only [List.length_nil, Nat.cast_zero, zero_mul, zero_add] at hb
    have hb2 : ((segLoop (track_length (p0 :: p1 :: rest) / (N : ℝ))
        ⟨[], [], [], 0⟩ p0 (p1 :: rest)).segments.length : ℝ) *
          (track_length (p0 :: p1 :: rest) / (N : ℝ)) <
        ((N : ℝ) + 1) * (track_length (p0 :: p1 :: rest) / (N : ℝ)) := by
      rw [add_mul, one_mul, hNt]
      linarith
    have hlt : ((segLoop (track_length (p0 :: p1 :: rest) / (N : ℝ))
        ⟨[], [], [], 0⟩ p0 (p1 :: rest)).segments.length : ℝ) <
        (N : ℝ) + 1 := (mul_lt_mul_right ht).mp hb2
    have hlt2 : ((segLoop (track_length (p0 :: p1 :: rest) / (N : ℝ))
        ⟨[], [], [], 0⟩ p0 (p1 :: rest)).segments.length : ℝ) < ((N + 1 : ℕ) : ℝ) := by
      push_cast
      exact hlt
    have := Nat.cast_lt.mp hlt2
    omega

/-- Claim C3 (amended): with fewer than 2 track points the segmentation
loop performs no iteration and returns empty segment output; no error is
raised and no precondition validation exists. -/
theorem C3_degenerate (pts : List Point) (N : ℕ) (h : pts.length < 2) :
    segmentTrack pts N = ([], []) := by
  cases pts with
  | nil => rfl
  | cons p rest =>
    cases rest with
    | nil => rfl
    | cons q rest' => simp at h; omega

/-- Counterexample to claim C3 as stated: on a single-point input the
segmentation computation terminates normally with empty output instead
of failing fast with an error. -/
theorem C3_counterexample :
    segmentTrack [((0 : ℝ), (0 : ℝ))] 80 = ([], []) := rfl

/-- Witness for C3 (amended): the empty input has fewer than 2 points
and yields empty output. -/
theorem C3_witness :
    ([] : List Point).length < 2 ∧ segmentTrack [] 2 = ([], []) :=
  ⟨by simp, C3_degenerate [] 2 (by simp)⟩

/-- Claim C5: every recorded midpoint is the entry at array index
`len(segment) // 2` of that segment's own point list, hence an element
of that segment. -/
theorem C5_midpoint (pts : List Point) (N : ℕ) (i : ℕ)
    (hi : i < (segmentTrack pts N).1.length) :
    2 ≤ ((segmentTrack pts N).1.getD i []).length ∧
    (segmentTrack pts N).2.getD i origin =
      ((segmentTrack pts N).1.getD i []).getD
        (((segmentTrack pts N).1.getD i []).length / 2) origin ∧
    (segmentTrack pts N).2.getD i origin ∈ (segmentTrack pts N).1.getD i [] := by
  cases pts with
  | nil => simp [segmentTrack] at hi
  | cons p0 rest0 =>
    rw [segmentTrack_cons] at hi ⊢
    dsimp only at hi ⊢
    have hf := segLoop_mid (track_length (p0 :: rest0) / (N : ℝ)) rest0
      ⟨[], [], [], 0⟩ p0 List.Forall₂.nil
    rw [List.forall₂_iff_get] at hf
    obtain ⟨hlen, hget⟩ := hf
    have hj : i < (segLoop (track_length (p0 :: rest0) / (N : ℝ))
        ⟨[], [], [], 0⟩ p0 rest0).segment_points.length := hlen ▸ hi
    have hR := hget i hi hj
    obtain ⟨h2len, heq⟩ := hR
    have hgd : (segLoop (track_length (p0 :: rest0) / (N : ℝ))
        ⟨[], [], [], 0⟩ p0 rest0).segments.getD i [] =
        (segLoop (track_length (p0 :: rest0) / (N : ℝ))
          ⟨[], [], [], 0⟩ p0 rest0).segments.get ⟨i, hi⟩ := by
      rw [List.getD_eq_getElem _ _ hi]
      rfl
    have hgd2 : (segLoop (track_length (p0 :: rest0) / (N : ℝ))
        ⟨[], [], [], 0⟩ p0 rest0).segment_points.getD i origin =
        (segLoop (track_length (p0 :: rest0) / (N : ℝ))
          ⟨[], [], [], 0⟩ p0 rest0).segment_points.get ⟨i, hj⟩ := by
      rw [List.getD_eq_getElem _ _ hj]
      rfl
    refine ⟨by rw [hgd]; exact h2len, by rw [hgd, hgd2]; exact heq, ?_⟩
    rw [hgd, hgd2, heq]
    have hmid : ((segLoop (track_length (p0 :: rest0) / (N : ℝ))
        ⟨[], [], [], 0⟩ p0 rest0).segments.get ⟨i, hi⟩).length / 2 <
        ((segLoop (track_length (p0 :: rest0) / (N : ℝ))
          ⟨[], [], [], 0⟩ p0 rest0).segments.get ⟨i, hi⟩).length :=
      Nat.div_lt_self (by omega) one_lt_two
    rw [List.getD_eq_getElem _ _ hmid]
    exact List.getElem_mem _

/-! ## Concrete evaluation of the example scenario -/

theorem distPt_horiz (a b : ℝ) (h : a ≤ b) : distPt (a, 0) (b, 0) = b - a := by
  show Real.sqrt ((b - a) ^ 2 + ((0 : ℝ) - 0) ^ 2) = b - a
  rw [show (b - a) ^ 2 + ((0 : ℝ) - 0) ^ 2 = (b - a) ^ 2 by ring]
  rw [Real.sqrt_sq (by linarith)]

theorem segTrack_pts5 :
    segmentTrack pts5 2 = ([seg1, seg2], [((10 : ℝ), (0 : ℝ)), (30, 0)]) := by
  have d0 : distPt ((0 : ℝ), (0 : ℝ)) (10, 0) = 10 := by
    rw [distPt_horiz 0 10 (by norm_num)]; norm_num
  have d1 : distPt ((10 : ℝ), (0 : ℝ)) (20, 0) = 10 := by
    rw [distPt_horiz 10 20 (by norm_num)]; norm_num
  have d2 : distPt ((20 : ℝ), (0 : ℝ)) (30, 0) = 10 := by
    rw [distPt_horiz 20 30 (by norm_num)]; norm_num
  have d3 : distPt ((30 : ℝ), (0 : ℝ)) (40, 0) = 10 := by
    rw [distPt_horiz 30 40 (by norm_num)]; norm_num
  norm_num [pts5, seg1, seg2, segmentTrack, segLoop, segStep, stepCur,
    track_length, d0, d1, d2, d3, -Prod.mk_zero_zero]

theorem segTrack_ptsDup :
    (segmentTrack ptsDup 2).1 =
      [[((0 : ℝ), (0 : ℝ)), (10, 0)], [((10 : ℝ), (0 : ℝ)), (20, 0)],
       [((20 : ℝ), (0 : ℝ)), (20, 0)]] := by
  have d0 : distPt ((0 : ℝ), (0 : ℝ)) (10, 0) = 10 := by
    rw [distPt_horiz 0 10 (by norm_num)]; norm_num
  have d1 : distPt ((10 : ℝ), (0 : ℝ)) (20, 0) = 10 := by
    rw [distPt_horiz 10 20 (by norm_num)]; norm_num
  have d2 : distPt ((20 : ℝ), (0 : ℝ)) (20, 0) = 0 := by
    rw [distPt_horiz 20 20 (by norm_num)]; norm_num
  norm_num [ptsDup, segmentTrack, segLoop, segStep, stepCur,
    track_length, d0, d1, d2, -Prod.mk_zero_zero]

/-- Counterexample to claim C2 as stated: on the 4-point polyline with a
duplicated final point and target count N = 2 the code retains 3
segments, exceeding N. -/
theorem C2_counterexample :
    ¬((segmentTrack ptsDup 2).1.length ≤ 2 ∧
      (segmentTrack ptsDup 2).1.length ≤ ptsDup.length - 1) := by
  rw [segTrack_ptsDup]
  norm_num

/-- Witness for C1 at the spec's example scenario. -/
theorem C1_witness :
    2 ≤ pts5.length ∧ 0 < 2 ∧
    reconstruct (segmentTrack pts5 2).1 = pts5 ∧
    List.Chain' linked (segmentTrack pts5 2).1 :=
  ⟨by norm_num [pts5], by norm_num,
   (C1_reconstruction pts5 2 (by norm_num [pts5]) (by norm_num)).1,
   (C1_reconstruction pts5 2 (by norm_num [pts5]) (by norm_num)).2⟩

/-- Witness for C2 (amended) at the spec's example scenario, whose
consecutive points are pairwise distinct. -/
theorem C2_witness :
    (segmentTrack pts5 2).1.length ≤ pts5.length - 1 ∧
    (segmentTrack pts5 2).1.length ≤ 2 :=
  ⟨(C2_count pts5 2 (by norm_num [pts5]) (by norm_num)).1,
   (C2_count pts5 2 (by norm_num [pts5]) (by norm_num)).2 (by
     norm_num [pts5, List.chain'_cons, Prod.ext_iff, -Prod.mk_zero_zero])⟩

/-- Witness for C5 at the spec's example scenario, first segment. -/
theorem C5_witness :
    2 ≤ ((segmentTrack pts5 2).1.getD 0 []).length ∧
    (segmentTrack pts5 2).2.getD 0 origin =
      ((segmentTrack pts5 2).1.getD 0 []).getD
        (((segmentTrack pts5 2).1.getD 0 []).length / 2) origin ∧
    (segmentTrack pts5 2).2.getD 0 origin ∈ (segmentTrack pts5 2).1.getD 0 [] :=
  C5_midpoint pts5 2 0 (by rw [segTrack_pts5]; norm_num)

/-! ## Attribution lemmas -/

theorem processDriver_length (sps : List Point) (st : List (Option String × ℝ))
    (dd : DriverData) (hlen : st.length = sps.length) :
    (processDriver sps st dd).length = st.length := by
  unfold processDriver
  by_cases h : dd.tel.isEmpty
  · rw [if_pos h]
  · rw [if_neg h]
    simp [hlen]

theorem processDriver_getD (sps : List Point) (st : List (Option String × ℝ))
    (dd : DriverData) (i : ℕ) (hlen : st.length = sps.length)
    (hi : i < st.length) :
    (processDriver sps st dd).getD i noAttr =
      if dd.tel.isEmpty then st.getD i noAttr
      else
        (if (st.getD i noAttr).2 < nearestSpeed dd.tel (sps.getD i origin)
         then (some dd.driver, nearestSpeed dd.tel (sps.getD i origin))
         else st.getD i noAttr) := by
  unfold processDriver
  by_cases h : dd.tel.isEmpty
  · rw [if_pos h, if_pos h]
  · rw [if_neg h, if_neg h]
    have hzip : i < (sps.zip st).length := by
      simp only [List.length_zip]
      omega
    have hmap : i < ((sps.zip st).map (fun ms =>
        if ms.2.2 < nearestSpeed dd.tel ms.1
        then (some dd.driver, nearestSpeed dd.tel ms.1) else ms.2)).length := by
      simpa using hzip
    rw [List.getD_eq_getElem _ _ hmap, List.getElem_map, List.getElem_zip]
    rw [List.getD_eq_getElem st _ hi, List.getD_eq_getElem sps _ (by omega)]

theorem foldl_length (sps : List Point) (ds : List DriverData) :
    ∀ (st : List (Option String × ℝ)), st.length = sps.length →
    (List.foldl (processDriver sps) st ds).length = st.length := by
  induction ds with
  | nil => intro st _; rfl
  | cons dd ds ih =>
    intro st hlen
    have h1 := processDriver_length sps st dd hlen
    simp only [List.foldl_cons]
    rw [ih _ (h1.trans hlen), h1]

theorem foldl_entry_keep (sps : List Point) (i : ℕ) (s : ℝ)
    (ds : List DriverData) :
    ∀ (st : List (Option String × ℝ)), st.length = sps.length →
    i < st.length →
    (∀ dd ∈ ds, dd.tel = [] ∨ nearestSpeed dd.tel (sps.getD i origin) ≤ s) →
    (st.getD i noAttr).2 = s →
    (List.foldl (processDriver sps) st ds).getD i noAttr = st.getD i noAttr := by
  induction ds with
  | nil => intro st _ _ _ _; rfl
  | cons dd ds ih =>
    intro st hlen hi hall hs
    have hkeep : (processDriver sps st dd).getD i noAttr = st.getD i noAttr := by
      rw [processDriver_getD sps st dd i hlen hi]
      by_cases h : dd.tel.isEmpty
      · rw [if_pos h]
      · rw [if_neg h]
        rcases hall dd (List.mem_cons_self dd ds) with he | hle
        · exact absurd (List.isEmpty_iff.mpr he) (by simpa using h)
        · rw [if_neg (by rw [hs]; exact not_lt.mpr hle)]
    simp only [List.foldl_cons]
    rw [ih (processDriver sps st dd)
      ((processDriver_length sps st dd hlen).trans hlen)
      ((processDriver_length sps st dd hlen).symm ▸ hi)
      (fun d hd => hall d (List.mem_cons_of_mem dd hd))
      (by rw [hkeep, hs]), hkeep]

theorem foldl_entry_lt (sps : List Point) (i : ℕ) (s : ℝ)
    (ds : List DriverData) :
    ∀ (st : List (Option String × ℝ)), st.length = sps.length →
    i < st.length →
    (∀ dd ∈ ds, dd.tel = [] ∨ nearestSpeed dd.tel (sps.getD i origin) < s) →
    (st.getD i noAttr).2 < s →
    ((List.foldl (processDriver sps) st ds).getD i noAttr).2 < s := by
  induction ds with
  | nil => intro st _ _ _ hs; exact hs
  | cons dd ds ih =>
    intro st hlen hi hall hs
    simp only [List.foldl_cons]
    apply ih (processDriver sps st dd)
      ((processDriver_length sps st dd hlen).trans hlen)
      ((processDriver_length sps st dd hlen).symm ▸ hi)
      (fun d hd => hall d (List.mem_cons_of_mem dd hd))
    rw [processDriver_getD sps st dd i hlen hi]
    by_cases h : dd.tel.isEmpty
    · rw [if_pos h]; exact hs
    · rw [if_neg h]
      rcases hall dd (List.mem_cons_self dd ds) with he | hlt
      · exact absurd (List.isEmpty_iff.mpr he) (by simpa using h)
      · by_cases hup : (st.getD i noAttr).2 < nearestSpeed dd.tel (sps.getD i origin)
        · rw [if_pos hup]; exact hlt
        · rw [if_neg hup]; exact hs

theorem attributionInit_getD (segments : List (List Point)) (i : ℕ)
    (hi : i < segments.length) :
    (segments.map (fun _ => noAttr)).getD i noAttr = noAttr := by
  have hm : i < (segments.map (fun _ => noAttr)).length := by simpa using hi
  rw [List.getD_eq_getElem _ _ hm, List.getElem_map]

/-- Claim C4 (amended): with a strictly positive tied maximum speed, the
first driver in processing order achieving the maximum is recorded and
later drivers that merely tie never overwrite it (the update comparison
is strictly-greater, never greater-or-equal).  A tied maximum of exactly
0 instead leaves the segment unattributed (see the counterexample). -/
theorem C4_tiebreak (segments : List (List Point)) (sps : List Point)
    (pre post : List DriverData) (A : DriverData) (i : ℕ) (s : ℝ)
    (hlen : segments.length = sps.length) (hi : i < segments.length)
    (hA : A.tel ≠ [])
    (hAs : nearestSpeed A.tel (sps.getD i origin) = s)
    (hs : 0 < s)
    (hpre : ∀ dd ∈ pre, dd.tel = [] ∨ nearestSpeed dd.tel (sps.getD i origin) < s)
    (hpost : ∀ dd ∈ post, dd.tel = [] ∨ nearestSpeed dd.tel (sps.getD i origin) ≤ s) :
    (segmentAttribution segments sps (pre ++ A :: post)).getD i noAttr =
      (some A.driver, s) := by
  unfold segmentAttribution
  rw [List.foldl_append]
  have hinitlen : (segments.map (fun _ => noAttr)).length = sps.length := by
    simpa using hlen
  have hiinit : i < (segments.map (fun _ => noAttr)).length := by simpa using hi
  have hprelen := foldl_length sps pre (segments.map (fun _ => noAttr)) hinitlen
  have hipre : i < (List.foldl (processDriver sps)
      (segments.map (fun _ => noAttr)) pre).length := by omega
  have hprelow : ((List.foldl (processDriver sps)
      (segments.map (fun _ => noAttr)) pre).getD i noAttr).2 < s := by
    apply foldl_entry_lt sps i s pre _ hinitlen hiinit hpre
    rw [attributionInit_getD segments i hi]
    exact hs
  simp only [List.foldl_cons]
  have hstep : (processDriver sps (List.foldl (processDriver sps)
      (segments.map (fun _ => noAttr)) pre) A).getD i noAttr =
      (some A.driver, s) := by
    rw [processDriver_getD sps _ A i (hprelen.trans hinitlen) hipre]
    rw [if_neg (by simpa [List.isEmpty_iff] using hA)]
    rw [hAs, if_pos hprelow]
  have hsteplen : (processDriver sps (List.foldl (processDriver sps)
      (segments.map (fun _ => noAttr)) pre) A).length = sps.length :=
    (processDriver_length sps _ A (hprelen.trans hinitlen)).trans
      (hprelen.trans hinitlen)
  rw [foldl_entry_keep sps i s post _ hsteplen (by omega) hpost
    (by rw [hstep]), hstep]

/-- Claim C7: every attribution cell starts at `(none, 0)`, and a
segment where no driver's nearest sample ever has speed strictly above 0
keeps `fastest_driver = none` (and speed 0) after the full pass. -/
theorem C7_nodata (segments : List (List Point)) (sps : List Point)
    (drivers : List DriverData) (i : ℕ)
    (hlen : segments.length = sps.length) (hi : i < segments.length)
    (h0 : ∀ dd ∈ drivers, dd.tel ≠ [] →
      nearestSpeed dd.tel (sps.getD i origin) ≤ 0) :
    (segmentAttribution segments sps drivers).getD i noAttr = noAttr := by
  unfold segmentAttribution
  have hinitlen : (segments.map (fun _ => noAttr)).length = sps.length := by
    simpa using hlen
  have hiinit : i < (segments.map (fun _ => noAttr)).length := by simpa using hi
  rw [foldl_entry_keep sps i 0 drivers _ hinitlen hiinit
    (fun dd hdd => by
      by_cases he : dd.tel = []
      · exact Or.inl he
      · exact Or.inr (h0 dd hdd he))
    (by rw [attributionInit_getD segments i hi]; rfl)]
  exact attributionInit_getD segments i hi

/-- Claim C9: attribution is a deterministic function of the driver
processing order and the observation data; two runs from the fresh
initial state produce identical results. -/
theorem C9_deterministic (segments : List (List Point)) (sps : List Point)
    (drivers : List DriverData) (r1 r2 : List (Option String × ℝ))
    (h1 : r1 = segmentAttribution segments sps drivers)
    (h2 : r2 = segmentAttribution segments sps drivers) : r1 = r2 :=
  h1.trans h2.symm

/-- Witness for C9 on concrete data. -/
theorem C9_witness :
    segmentAttribution segsZ spsZ [dZA] = segmentAttribution segsZ spsZ [dZA] :=
  C9_deterministic segsZ spsZ [dZA] _ _ rfl rfl

/-! ## Concrete attribution evaluations -/

theorem sqrt_400 : Real.sqrt 400 = 20 := by
  rw [show (400 : ℝ) = 20 ^ 2 by norm_num, Real.sqrt_sq (by norm_num)]

theorem nearA1 : nearestSpeed dA.tel ((10 : ℝ), (0 : ℝ)) = 200 := by
  norm_num [dA, nearestSpeed, sampleDistances, argmin, argminAux,
    Real.sqrt_zero, sqrt_400]

theorem nearC1 : nearestSpeed dC.tel ((10 : ℝ), (0 : ℝ)) = 200 := by
  norm_num [dC, nearestSpeed, sampleDistances, argmin, argminAux,
    Real.sqrt_zero, sqrt_400]

theorem nearZ : nearestSpeed dZA.tel ((1 : ℝ), (0 : ℝ)) = 0 := by
  norm_num [dZA, nearestSpeed, sampleDistances, argmin, argminAux,
    Real.sqrt_zero]

theorem attr_example :
    segmentAttribution [seg1, seg2] [((10 : ℝ), (0 : ℝ)), (30, 0)] [dA, dB] =
      [(some "A", 200), (some "B", 250)] := by
  norm_num [seg1, seg2, dA, dB, segmentAttribution, processDriver,
    nearestSpeed, sampleDistances, argmin, argminAux, noAttr,
    Real.sqrt_zero, sqrt_400, -Prod.mk_zero_zero]

/-- Claim C6: the spec's example scenario end to end: segmentation of
the five collinear points with N = 2 yields exactly the two expected
segments with midpoints `(10,0)` and `(30,0)`, and attribution assigns
segment 1 to driver A with speed 200 and segment 2 to driver B with
speed 250. -/
theorem C6_example :
    segmentTrack pts5 2 = ([seg1, seg2], [((10 : ℝ), (0 : ℝ)), (30, 0)]) ∧
    segmentAttribution [seg1, seg2] [((10 : ℝ), (0 : ℝ)), (30, 0)] [dA, dB] =
      [(some "A", 200), (some "B", 250)] :=
  ⟨segTrack_pts5, attr_example⟩

/-- Counterexample to claim C4 as stated: drivers A and B both have
nearest-sample speed exactly 0 at the segment midpoint, 0 is the
maximum over all drivers, yet the attribution does not record driver A
(the first in order); the cell keeps `fastest_driver = none` because
the update needs a strictly greater speed than the initial 0. -/
theorem C4_counterexample :
    ((segmentAttribution segsZ spsZ [dZA, dZB]).getD 0 noAttr).1 ≠ some "A" := by
  have : (segmentAttribution segsZ spsZ [dZA, dZB]).getD 0 noAttr = noAttr := by
    norm_num [segsZ, spsZ, dZA, dZB, segmentAttribution, processDriver,
      nearestSpeed, sampleDistances, argmin, argminAux, noAttr,
      Real.sqrt_zero, -Prod.mk_zero_zero]
  rw [this]
  simp [noAttr]

/-- Witness for C4 (amended): a genuine positive-speed tie, driver A
first and driver C tying at 200; A is recorded. -/
theorem C4_witness :
    (segmentAttribution [seg1, seg2] [((10 : ℝ), (0 : ℝ)), (30, 0)]
      ([] ++ dA :: [dC])).getD 0 noAttr = (some "A", 200) :=
  C4_tiebreak [seg1, seg2] [((10 : ℝ), (0 : ℝ)), (30, 0)] [] [dC] dA 0 200
    (by simp) (by simp) (by simp [dA])
    (by simpa using nearA1) (by norm_num)
    (by simp)
    (by
      intro dd hdd
      rw [List.mem_singleton.mp hdd]
      right
      simp only [List.getD_cons_zero]
      rw [nearC1])

/-- Witness for C7: one driver whose only sample has speed 0; the cell
stays `(none, 0)`. -/
theorem C7_witness :
    (segmentAttribution segsZ spsZ [dZA]).getD 0 noAttr = noAttr :=
  C7_nodata segsZ spsZ [dZA] 0 (by simp [segsZ, spsZ]) (by simp [segsZ])
    (by
      intro dd hdd _
      rw [List.mem_singleton.mp hdd]
      simp only [spsZ, List.getD_cons_zero]
      rw [nearZ])

/-! ## `analyze_slipstream` -/

theorem foldl_min_le_acc (xs : List ℚ) : ∀ acc : ℚ, xs.foldl min acc ≤ acc := by
  induction xs with
  | nil => intro acc; simp
  | cons x xs ih =>
    intro acc
    exact le_trans (ih (min acc x)) (min_le_left _ _)

theorem foldl_min_le_mem (xs : List ℚ) :
    ∀ acc : ℚ, ∀ y ∈ xs, xs.foldl min acc ≤ y := by
  induction xs with
  | nil => intro acc y hy; simp at hy
  | cons x xs ih =>
    intro acc y hy
    rcases List.mem_cons.mp hy with rfl | hy'
    · exact le_trans (foldl_min_le_acc xs _) (min_le_right _ _)
    · exact ih _ y hy'

theorem foldl_min_mem (xs : List ℚ) :
    ∀ acc : ℚ, xs.foldl min acc = acc ∨ xs.foldl min acc ∈ xs := by
  induction xs with
  | nil => intro acc; left; rfl
  | cons x xs ih =>
    intro acc
    rcases ih (min acc x) with h | h
    · simp only [List.foldl_cons]
      rw [h]
      rcases le_total acc x with hle | hle
      · left; exact min_eq_left hle
      · right; rw [min_eq_right hle]; exact List.mem_cons_self x xs
    · right
      exact List.mem_cons_of_mem x h

theorem foldl_max_acc_le (xs : List ℚ) : ∀ acc : ℚ, acc ≤ xs.foldl max acc := by
  induction xs with
  | nil => intro acc; simp
  | cons x xs ih =>
    intro acc
    exact le_trans (le_max_left _ _) (ih (max acc x))

theorem foldl_max_mem_le (xs : List ℚ) :
    ∀ acc : ℚ, ∀ y ∈ xs, y ≤ xs.foldl max acc := by
  induction xs with
  | nil => intro acc y hy; simp at hy
  | cons x xs ih =>
    intro acc y hy
    rcases List.mem_cons.mp hy with rfl | hy'
    · exact le_trans (le_max_right _ _) (foldl_max_acc_le xs _)
    · exact ih _ y hy'

theorem foldl_max_mem (xs : List ℚ) :
    ∀ acc : ℚ, xs.foldl max acc = acc ∨ xs.foldl max acc ∈ xs := by
  induction xs with
  | nil => intro acc; left; rfl
  | cons x xs ih =>
    intro acc
    rcases ih (max acc x) with h | h
    · simp only [List.foldl_cons]
      rw [h]
      rcases le_total acc x with hle | hle
      · right; rw [max_eq_right hle]; exact List.mem_cons_self x xs
      · left; exact max_eq_left hle
    · right
      exact List.mem_cons_of_mem x h

theorem seriesMin_spec (x : ℚ) (xs : List ℚ) :
    seriesMin (x :: xs) ∈ x :: xs ∧ ∀ y ∈ x :: xs, seriesMin (x :: xs) ≤ y := by
  constructor
  · rcases foldl_min_mem xs x with h | h
    · rw [seriesMin, h]; exact List.mem_cons_self x xs
    · exact List.mem_cons_of_mem x h
  · intro y hy
    rcases List.mem_cons.mp hy with rfl | hy'
    · exact foldl_min_le_acc xs y
    · exact foldl_min_le_mem xs x y hy'

theorem seriesMax_spec (x : ℚ) (xs : List ℚ) :
    seriesMax (x :: xs) ∈ x :: xs ∧ ∀ y ∈ x :: xs, y ≤ seriesMax (x :: xs) := by
  constructor
  · rcases foldl_max_mem xs x with h | h
    · rw [seriesMax, h]; exact List.mem_cons_self x xs
    · exact List.mem_cons_of_mem x h
  · intro y hy
    rcases List.mem_cons.mp hy with rfl | hy'
    · exact foldl_max_acc_le xs y
    · exact foldl_max_mem_le xs x y hy'

/-- Claim C8: on any nonempty telemetry table, `analyze_slipstream`
(with the source defaults 50.0 and 300.0) returns the minimum of the
`DistanceToCarAhead` column and the maximum of the `Speed` column, and
its boolean is true iff that minimum is strictly below 50 and that
maximum strictly above 300. -/
theorem C8_slipstream (telemetry : List TelemetryRow) (h : telemetry ≠ []) :
    ((analyze_slipstream telemetry 50 300).2.1 ∈
        telemetry.map (fun r => r.distanceToCarAhead) ∧
      ∀ x ∈ telemetry.map (fun r => r.distanceToCarAhead),
        (analyze_slipstream telemetry 50 300).2.1 ≤ x) ∧
    ((analyze_slipstream telemetry 50 300).2.2 ∈
        telemetry.map (fun r => r.speed) ∧
      ∀ x ∈ telemetry.map (fun r => r.speed),
        x ≤ (analyze_slipstream telemetry 50 300).2.2) ∧
    ((analyze_slipstream telemetry 50 300).1 = true ↔
      ((analyze_slipstream telemetry 50 300).2.1 < 50 ∧
        300 < (analyze_slipstream telemetry 50 300).2.2)) := by
  cases telemetry with
  | nil => exact absurd rfl h
  | cons r rs =>
    refine ⟨?_, ?_, ?_⟩
    · show seriesMin (r.distanceToCarAhead :: rs.map (fun r => r.distanceToCarAhead)) ∈ _ ∧ _
      exact seriesMin_spec r.distanceToCarAhead (rs.map (fun r => r.distanceToCarAhead))
    · exact seriesMax_spec r.speed (rs.map (fun r => r.speed))
    · simp only [analyze_slipstream, decide_eq_true_eq]

/-- Witness for C8 on a one-row table crossing both thresholds. -/
theorem C8_witness :
    ((analyze_slipstream [⟨40, 310⟩] 50 300).2.1 ∈
        ([⟨40, 310⟩] : List TelemetryRow).map (fun r => r.distanceToCarAhead) ∧
      ∀ x ∈ ([⟨40, 310⟩] : List TelemetryRow).map (fun r => r.distanceToCarAhead),
        (analyze_slipstream [⟨40, 310⟩] 50 300).2.1 ≤ x) ∧
    ((analyze_slipstream [⟨40, 310⟩] 50 300).2.2 ∈
        ([⟨40, 310⟩] : List TelemetryRow).map (fun r => r.speed) ∧
      ∀ x ∈ ([⟨40, 310⟩] : List TelemetryRow).map (fun r => r.speed),
        x ≤ (analyze_slipstream [⟨40, 310⟩] 50 300).2.2) ∧
    ((analyze_slipstream [⟨40, 310⟩] 50 300).1 = true ↔
      ((analyze_slipstream [⟨40, 310⟩] 50 300).2.1 < 50 ∧
        300 < (analyze_slipstream [⟨40, 310⟩] 50 300).2.2)) :=
  C8_slipstream [⟨40, 310⟩] (by simp)

/-! ## `get_driver_info` -/

/-- Claim C10: `get_driver_info` always returns a record with exactly
the fields `name`, `number`, `team` (its return type), and when no
result row's abbreviation equals the given driver code it returns the
default `{name: code, number: "N/A", team: "Unknown"}` instead of
raising. -/
theorem C10_driver_info (results : List ResultRow) (driver_code : String)
    (h : ∀ r ∈ results, r.abbreviation ≠ driver_code) :
    get_driver_info results driver_code =
      { name := driver_code, number := "N/A", team := "Unknown" } := by
  unfold get_driver_info
  have hfil : results.filter (fun r => r.abbreviation == driver_code) = [] := by
    rw [List.filter_eq_nil_iff]
    intro r hr
    simpa using h r hr
  rw [hfil]

/-- Witness for C10: an unknown driver code on an empty result table. -/
theorem C10_witness :
    get_driver_info [] "HAM" =
      { name := "HAM", number := "N/A", team := "Unknown" } :=
  C10_driver_info [] "HAM" (by simp)

end F1
